import Mathlib

/-!
Verification of the netfun repository core (src/bt.rs): the bencoding
decoder and the NodeId XOR-distance metric, shallowly embedded in Lean.

Bytes are modelled as natural numbers below 256; byte buffers as lists of
naturals.  Rust machine integers that matter (the u32 narrowing of string
lengths) appear as explicit bounds; BigInt/BigUint are Int/Nat.  Fallible
parsers return Option; nom recoverable errors, failures and incomplete
results are all observationally a parse failure here (the source wraps
every alternative in complete() and produces no Failure, so all error
variants collapse to backtracking failure).  The recursive-descent loops
of the source are given explicit fuel; theorems below show the result is
independent of the fuel once it exceeds the input length, which witnesses
termination of the source recursion.

String payloads: the source stores a decoded payload as
String::from_utf8_lossy(bytes).  We model the payload as its raw bytes;
the lossy text conversion is a final representation change on the decoded
value (the identity embedding on valid UTF-8 payloads) and is orthogonal
to the parse structure that the claims are about.
-/

namespace Netfun

/-- Turn an ASCII string literal into the byte list it denotes. -/
def strBytes (s : String) : List Nat := s.toList.map Char.toNat

/-! ### NodeId (src/bt.rs lines 13-39) -/

/-- NodeId([u8; 20]): a fixed 160-bit identifier. -/
structure NodeId where
  bytes : List Nat
  length_eq : bytes.length = 20
  bytes_lt : ∀ b ∈ bytes, b < 256

/-- BigUint::from_bytes_be: big-endian interpretation of a byte buffer. -/
def fromBytesBE (l : List Nat) : Nat := l.foldl (fun acc b => acc * 256 + b) 0

/-- NodeId::distance: XOR of the big-endian values (src lines 25-29). -/
def NodeId.distance (a b : NodeId) : Nat :=
  Nat.xor (fromBytesBE a.bytes) (fromBytesBE b.bytes)

/-- One step of Iterator::min_by folding: keep the accumulator unless the
new element is strictly smaller (Rust min_by keeps the first minimum). -/
def minStep (acc q : Nat × Nat) : Nat × Nat := if q.2 < acc.2 then q else acc

/-- Iterator::min_by over (index, distance) pairs: None on an empty
iterator, otherwise the reduce of minStep. -/
def minByFirst : List (Nat × Nat) → Option (Nat × Nat)
  | [] => none
  | p :: ps => some (ps.foldl minStep p)

/-- NodeId::closest (src lines 31-38).  The source indexes node_ids[n];
the index returned by min_by is always in range, so the getD default is
never used. -/
def NodeId.closest (x : NodeId) (cs : List NodeId) : NodeId :=
  match minByFirst ((cs.enum).map (fun q => (q.1, x.distance q.2))) with
  | some (n, _) => cs.getD n x
  | none => x

/-- The all-zero identifier, used as a concrete witness input. -/
def zeroId : NodeId :=
  ⟨List.replicate 20 0, by simp, by intro b hb; simp at hb; omega⟩

/-- An identifier ending in one 1 bit, used as a concrete witness input. -/
def oneId : NodeId :=
  ⟨List.replicate 19 0 ++ [1], by simp, by
    intro b hb
    simp [List.mem_append] at hb
    rcases hb with h | h <;> omega⟩

/-! ### Bencoding values (src/bt.rs lines 49-55)

Dictionary is modelled as an association list in first-insertion order
with last-write-wins updates, the canonical content of the source's
HashMap. -/

inductive Bencoding : Type where
  | string : List Nat → Bencoding
  | integer : Int → Bencoding
  | list : List Bencoding → Bencoding
  | dictionary : List (List Nat × Bencoding) → Bencoding

/-- HashMap::insert: overwrite the value of an existing key (keeping its
position), otherwise append the new binding. -/
def insertA : List (List Nat × Bencoding) → List Nat → Bencoding →
    List (List Nat × Bencoding)
  | [], k, v => [(k, v)]
  | (k', v') :: t, k, v =>
    if k' = k then (k, v) :: t else (k', v') :: insertA t k v

/-- HashMap lookup on the association-list model. -/
def lookupA : List (List Nat × Bencoding) → List Nat → Option Bencoding
  | [], _ => none
  | (k', v') :: t, k => if k' = k then some v' else lookupA t k

/-- Insert a sequence of pairs in order into an empty map. -/
def dictOf (ps : List (List Nat × Bencoding)) : List (List Nat × Bencoding) :=
  ps.foldl (fun d q => insertA d q.1 q.2) []

/-! ### The parser (src/bt.rs lines 57-160) -/

/-- nom character::is_digit: an ASCII decimal digit byte. -/
def isDigitB (b : Nat) : Bool := decide (48 ≤ b) && decide (b ≤ 57)

/-- The numeric value of a list of ASCII digit bytes (what
BigInt::from_str computes on them, leading zeros allowed). -/
def natOf (digits : List Nat) : Nat :=
  digits.foldl (fun acc d => acc * 10 + (d - 48)) 0

/-- The digits-and-value part of parse_bigint, after the optional sign
has been consumed: take_while1(is_digit) then the signed value. -/
def bigintAfterSign (rest : List Nat) (neg : Bool) : Option (List Nat × Int) :=
  let digits := rest.takeWhile isDigitB
  if digits = [] then none
  else some (rest.dropWhile isDigitB,
    if neg then -(natOf digits : Int) else (natOf digits : Int))

/-- Bencoding::parse_bigint (src lines 68-78): opt(tag("-")) then
take_while1(is_digit) then BigInt::from_str, which cannot fail on a
nonempty digit string (the Err arm of the source is dead code). -/
def parse_bigint (input : List Nat) : Option (List Nat × Int) :=
  match input with
  | b :: rest => if b = 45 then bigintAfterSign rest true
                 else bigintAfterSign input false
  | [] => bigintAfterSign [] false

/-- parse_end (src line 101): tag("e"). -/
def parse_end (input : List Nat) : Option (List Nat) :=
  match input with
  | b :: rest => if b = 101 then some rest else none
  | [] => none

/-- Bencoding::parse_integer (src lines 80-85): tag("i"), parse_bigint,
then parse_end. -/
def parse_integer (input : List Nat) : Option (List Nat × Bencoding) :=
  match input with
  | b :: rest =>
    if b = 105 then
      match parse_bigint rest with
      | some (rest2, n) =>
        match parse_end rest2 with
        | some rest3 => some (rest3, Bencoding.integer n)
        | none => none
      | none => none
    else none
  | [] => none

/-- Bencoding::parse_string (src lines 87-99): parse_bigint for the
length, reject a negative value (Sign::Minus; the BigInt -0 is the value
0 and has sign NoSign, hence is not rejected), narrow to u32 (reject
values of 2^32 or more), tag(":"), then take exactly that many bytes
(take fails when fewer remain). -/
def parse_string (input : List Nat) : Option (List Nat × Bencoding) :=
  match parse_bigint input with
  | none => none
  | some (rest, n) =>
    if n < 0 then none
    else if 4294967296 ≤ n then none
    else
      match rest with
      | b :: rest2 =>
        if b = 58 then
          if rest2.length < n.toNat then none
          else some (rest2.drop n.toNat, Bencoding.string (rest2.take n.toNat))
        else none
      | [] => none

/-- The loop body of parse_list (src lines 106-120): check for the
terminator before each element, otherwise parse one element with the
dispatcher p and continue.  fuel bounds the number of iterations; the
theorems below show any fuel beyond the input length gives the same
result. -/
def elemsLoop (p : List Nat → Option (List Nat × Bencoding)) :
    Nat → List Nat → Option (List Nat × List Bencoding)
  | 0, _ => none
  | fuel + 1, input =>
    match parse_end input with
    | some rest => some (rest, [])
    | none =>
      match p input with
      | some (rem, v) =>
        match elemsLoop p fuel rem with
        | some (rem2, vs) => some (rem2, v :: vs)
        | none => none
      | none => none

/-- The loop body of parse_dictionary (src lines 127-147): check for the
terminator, otherwise parse a key with parse_string, match it as a Text
value (the non-Text arm mirrors the source's error arm on line 142 and is
dead because parse_string only builds Text), parse a value with the
dispatcher p, and insert with last-write-wins. -/
def pairsLoop (p : List Nat → Option (List Nat × Bencoding)) :
    Nat → List Nat → List (List Nat × Bencoding) →
    Option (List Nat × List (List Nat × Bencoding))
  | 0, _, _ => none
  | fuel + 1, input, dict =>
    match parse_end input with
    | some rest => some (rest, dict)
    | none =>
      match parse_string input with
      | some (rem, Bencoding.string k) =>
        match p rem with
        | some (rem2, v) => pairsLoop p fuel rem2 (insertA dict k v)
        | none => none
      | some (_, _) => none
      | none => none

/-- Bencoding::parse_list (src lines 103-122): tag("l") then the element
loop. -/
def parse_list (p : List Nat → Option (List Nat × Bencoding)) (fuel : Nat)
    (input : List Nat) : Option (List Nat × Bencoding) :=
  match input with
  | b :: rest =>
    if b = 108 then
      match elemsLoop p fuel rest with
      | some (rem, vs) => some (rem, Bencoding.list vs)
      | none => none
    else none
  | [] => none

/-- Bencoding::parse_dictionary (src lines 124-150): tag("d") then the
pair loop starting from the empty map. -/
def parse_dictionary (p : List Nat → Option (List Nat × Bencoding)) (fuel : Nat)
    (input : List Nat) : Option (List Nat × Bencoding) :=
  match input with
  | b :: rest =>
    if b = 100 then
      match pairsLoop p fuel rest [] with
      | some (rem, d) => some (rem, Bencoding.dictionary d)
      | none => none
    else none
  | [] => none

/-- Ordered alternation: the first parse that succeeds wins, failures
backtrack to the untouched input (nom alt over complete parsers). -/
def orTry (a b : Option (List Nat × Bencoding)) : Option (List Nat × Bencoding) :=
  match a with
  | some r => some r
  | none => b

/-- Bencoding::parse (src lines 152-159): alt of parse_integer,
parse_list, parse_dictionary, parse_string, in that order. -/
def parseVal : Nat → List Nat → Option (List Nat × Bencoding)
  | 0, _ => none
  | fuel + 1, input =>
    orTry (parse_integer input)
      (orTry (parse_list (fun j => parseVal fuel j) fuel input)
        (orTry (parse_dictionary (fun j => parseVal fuel j) fuel input)
          (parse_string input)))

/-- The dispatcher with enough fuel for its input. -/
def parse (input : List Nat) : Option (List Nat × Bencoding) :=
  parseVal (input.length + 1) input

/-- Bencoding::from_slice (src lines 58-66): run the dispatcher and
require an empty remainder. -/
def from_slice (input : List Nat) : Option Bencoding :=
  match parse input with
  | some (leftovers, b) => if leftovers = [] then some b else none
  | none => none

/-! ### The wire grammar as a relation (spec section 6)

EncodesAux bnd d E V holds when E derives V by a grammar derivation of
depth below d.  With bnd = false this is exactly the wire grammar of the
spec; with bnd = true every string length is additionally required to fit
an unsigned 32-bit quantity (the amendment forced on claim C1). -/

/-- One string production: digit+ then a colon then exactly that many
payload bytes.  The grammar calls for a non-negative decimal length with
no sign, leading zeros not excluded. -/
def StrEnc (bnd : Bool) (bytes payload : List Nat) : Prop :=
  ∃ digits, digits ≠ [] ∧ (∀ b ∈ digits, isDigitB b = true) ∧
    natOf digits = payload.length ∧
    (bnd = true → natOf digits < 4294967296) ∧ bytes = digits ++ 58 :: payload

/-- Wire-grammar derivations of bounded depth. -/
def EncodesAux (bnd : Bool) : Nat → List Nat → Bencoding → Prop
  | 0, _, _ => False
  | d + 1, bytes, v =>
    (∃ (neg : Bool) (digits : List Nat), digits ≠ [] ∧ (∀ b ∈ digits, isDigitB b = true) ∧
       bytes = 105 :: ((if neg then 45 :: digits else digits) ++ [101]) ∧
       v = Bencoding.integer
         (if neg then -(natOf digits : Int) else (natOf digits : Int))) ∨
    (∃ payload, StrEnc bnd bytes payload ∧ v = Bencoding.string payload) ∨
    (∃ parts vs, List.Forall₂ (fun bs w => EncodesAux bnd d bs w) parts vs ∧
       bytes = 108 :: (parts.flatten ++ [101]) ∧ v = Bencoding.list vs) ∨
    (∃ chunks ps,
       List.Forall₂ (fun c q => ∃ kb vb, StrEnc bnd kb q.1 ∧
         EncodesAux bnd d vb q.2 ∧ c = kb ++ vb) chunks ps ∧
       bytes = 100 :: (chunks.flatten ++ [101]) ∧
       v = Bencoding.dictionary (dictOf ps))

/-- E is a valid encoding of V under the wire grammar of the spec. -/
def Encodes (bytes : List Nat) (v : Bencoding) : Prop :=
  ∃ d, EncodesAux false d bytes v

/-- E is a valid encoding of V in which every string length prefix fits
an unsigned 32-bit quantity. -/
def EncodesB (bytes : List Nat) (v : Bencoding) : Prop :=
  ∃ d, EncodesAux true d bytes v

/-! ### The leading-byte dispatchers (claim C8) -/

/-- Modelled from the spec: the dispatcher variant that branches directly
on the leading byte, exactly as the claim words it, sending 'i' to the
Integer production, 'l' to List, 'd' to Dictionary, and a digit to
String. -/
def byteDispatchSpec : Nat → List Nat → Option (List Nat × Bencoding)
  | 0, _ => none
  | fuel + 1, input =>
    match input with
    | [] => none
    | b :: _ =>
      if b = 105 then parse_integer input
      else if b = 108 then parse_list (fun j => byteDispatchSpec fuel j) fuel input
      else if b = 100 then parse_dictionary (fun j => byteDispatchSpec fuel j) fuel input
      else if isDigitB b then parse_string input
      else none

/-- Modelled from the spec, amended: as byteDispatchSpec, but a leading
45 (the sign of a length such as -0, which the String production
accepts) also dispatches to the String production. -/
def byteDispatchAmd : Nat → List Nat → Option (List Nat × Bencoding)
  | 0, _ => none
  | fuel + 1, input =>
    match input with
    | [] => none
    | b :: _ =>
      if b = 105 then parse_integer input
      else if b = 108 then parse_list (fun j => byteDispatchAmd fuel j) fuel input
      else if b = 100 then parse_dictionary (fun j => byteDispatchAmd fuel j) fuel input
      else if isDigitB b || b = 45 then parse_string input
      else none

/-- The decimal digits of 4294967296 = 2^32, as ASCII bytes. -/
def bigLenDigits : List Nat := [52, 50, 57, 52, 57, 54, 55, 50, 57, 54]

/-- A payload of 2^32 bytes (the grammar puts no bound on lengths). -/
def bigPayload : List Nat := List.replicate 4294967296 48

/-- A grammar-valid encoding of a 2^32-byte string, which the decoder
rejects at the u32 narrowing. -/
def bigInput : List Nat := bigLenDigits ++ 58 :: bigPayload

/-! ## Helper lemmas -/

theorem takeWhile_all_append (p : Nat → Bool) (l : List Nat) (b : Nat)
    (r : List Nat) (hl : ∀ x ∈ l, p x = true) (hb : p b = false) :
    (l ++ b :: r).takeWhile p = l := by
  induction l with
  | nil => simp [List.takeWhile_cons, hb]
  | cons a t ih =>
    have ha : p a = true := hl a (by simp)
    simp only [List.cons_append, List.takeWhile_cons, ha, if_true]
    rw [ih (fun x hx => hl x (by simp [hx]))]

theorem dropWhile_all_append (p : Nat → Bool) (l : List Nat) (b : Nat)
    (r : List Nat) (hl : ∀ x ∈ l, p x = true) (hb : p b = false) :
    (l ++ b :: r).dropWhile p = b :: r := by
  induction l with
  | nil => simp [List.dropWhile_cons, hb]
  | cons a t ih =>
    have ha : p a = true := hl a (by simp)
    simp only [List.cons_append, List.dropWhile_cons, ha, if_true]
    exact ih (fun x hx => hl x (by simp [hx]))

theorem not_digit_58 : isDigitB 58 = false := by decide

theorem not_digit_101 : isDigitB 101 = false := by decide

theorem digit_ne_45 {b : Nat} (h : isDigitB b = true) : b ≠ 45 := by
  simp [isDigitB] at h; omega

theorem digit_ne_101 {b : Nat} (h : isDigitB b = true) : b ≠ 101 := by
  simp [isDigitB] at h; omega

/-- Definitional unfolding of parse_bigint on a nonempty input. -/
theorem parse_bigint_cons (b : Nat) (r : List Nat) :
    parse_bigint (b :: r) =
      if b = 45 then bigintAfterSign r true
      else bigintAfterSign (b :: r) false := rfl

/-- parse_bigint on an unsigned digit run followed by a non-digit. -/
theorem bigint_digits (digits : List Nat) (b : Nat) (r : List Nat)
    (hd : digits ≠ []) (hall : ∀ x ∈ digits, isDigitB x = true)
    (hb : isDigitB b = false) :
    parse_bigint (digits ++ b :: r) = some (b :: r, (natOf digits : Int)) := by
  obtain ⟨d0, ds, rfl⟩ := List.exists_cons_of_ne_nil hd
  have hd0 : isDigitB d0 = true := hall d0 (by simp)
  have h45 : d0 ≠ 45 := digit_ne_45 hd0
  rw [List.cons_append, parse_bigint_cons, if_neg h45, ← List.cons_append]
  unfold bigintAfterSign
  rw [takeWhile_all_append _ _ _ _ hall hb,
    dropWhile_all_append _ _ _ _ hall hb]
  simp [hd]

/-- parse_bigint on a signed digit run followed by a non-digit. -/
theorem bigint_digits_neg (digits : List Nat) (b : Nat) (r : List Nat)
    (hd : digits ≠ []) (hall : ∀ x ∈ digits, isDigitB x = true)
    (hb : isDigitB b = false) :
    parse_bigint (45 :: digits ++ b :: r) =
      some (b :: r, -(natOf digits : Int)) := by
  rw [List.cons_append, parse_bigint_cons, if_pos rfl]
  unfold bigintAfterSign
  rw [takeWhile_all_append _ _ _ _ hall hb,
    dropWhile_all_append _ _ _ _ hall hb]
  simp [hd]

theorem parse_bigint_nil : parse_bigint [] = none := rfl

theorem parse_bigint_sign_nil : parse_bigint [45] = none := rfl

theorem parse_bigint_head_fail {b : Nat} (r : List Nat)
    (hb : isDigitB b = false) (h45 : b ≠ 45) :
    parse_bigint (b :: r) = none := by
  rw [parse_bigint_cons, if_neg h45]
  unfold bigintAfterSign
  simp [List.takeWhile_cons, hb]

theorem parse_bigint_sign_head_fail {b : Nat} (r : List Nat)
    (hb : isDigitB b = false) :
    parse_bigint (45 :: b :: r) = none := by
  rw [parse_bigint_cons, if_pos rfl]
  unfold bigintAfterSign
  simp [List.takeWhile_cons, hb]

/-- A successful parse_bigint starts with a digit or a sign. -/
theorem parse_bigint_some_head {i rest : List Nat} {n : Int}
    (h : parse_bigint i = some (rest, n)) :
    ∃ b r, i = b :: r ∧ (isDigitB b = true ∨ b = 45) := by
  match i with
  | [] => exact absurd h (by simp [parse_bigint_nil])
  | b :: r =>
    refine ⟨b, r, rfl, ?_⟩
    by_cases h45 : b = 45
    · exact Or.inr h45
    · by_cases hd : isDigitB b = true
      · exact Or.inl hd
      · rw [parse_bigint_head_fail r (by simpa using hd) h45] at h
        exact absurd h (by simp)

/-- parse_bigint consumes at least one byte. -/
theorem parse_bigint_some_length {i rest : List Nat} {n : Int}
    (h : parse_bigint i = some (rest, n)) : rest.length < i.length := by
  have key : ∀ (l : List Nat) (neg : Bool) (rest2 : List Nat) (m : Int),
      bigintAfterSign l neg = some (rest2, m) → rest2.length ≤ l.length ∧
        (l.takeWhile isDigitB ≠ [] → rest2.length < l.length) := by
    intro l neg rest2 m hb
    unfold bigintAfterSign at hb
    by_cases hnil : l.takeWhile isDigitB = []
    · simp [hnil] at hb
    · simp only [hnil, if_neg (by exact hnil), Option.some.injEq, Prod.mk.injEq] at hb
      obtain ⟨hrest, _⟩ := hb
      have hlen := congrArg List.length (List.takeWhile_append_dropWhile isDigitB l)
      simp only [List.length_append] at hlen
      have htw : 0 < (l.takeWhile isDigitB).length := List.length_pos.mpr hnil
      constructor
      · omega
      · intro _; omega
  match i with
  | [] => exact absurd h (by simp [parse_bigint_nil])
  | b :: r =>
    rw [parse_bigint_cons] at h
    by_cases h45 : b = 45
    · rw [if_pos h45] at h
      have := (key r true rest n h).1
      simp; omega
    · rw [if_neg h45] at h
      unfold bigintAfterSign at h
      by_cases hnil : (b :: r).takeWhile isDigitB = []
      · simp [hnil] at h
      · have := (key (b :: r) false rest n (by
          unfold bigintAfterSign
          simpa [hnil] using h)).2 hnil
        simpa using this

/-! ## Production-level lemmas -/

theorem parse_end_cons (b : Nat) (r : List Nat) :
    parse_end (b :: r) = if b = 101 then some r else none := rfl

theorem parse_end_nil : parse_end [] = none := rfl

theorem parse_end_some {i r : List Nat} (h : parse_end i = some r) :
    i = 101 :: r := by
  match i with
  | [] => exact absurd h (by simp [parse_end_nil])
  | b :: t =>
    rw [parse_end_cons] at h
    by_cases hb : b = 101
    · rw [if_pos hb] at h
      simp at h
      rw [hb, h]
    · rw [if_neg hb] at h
      exact absurd h (by simp)

theorem parse_integer_cons (b : Nat) (r : List Nat) :
    parse_integer (b :: r) =
      if b = 105 then
        match parse_bigint r with
        | some (rest2, n) =>
          match parse_end rest2 with
          | some rest3 => some (rest3, Bencoding.integer n)
          | none => none
        | none => none
      else none := rfl

theorem parse_integer_nil : parse_integer [] = none := rfl

theorem parse_integer_head_fail {b : Nat} (r : List Nat) (hb : b ≠ 105) :
    parse_integer (b :: r) = none := by
  rw [parse_integer_cons, if_neg hb]

theorem parse_integer_some_head {i rem : List Nat} {v : Bencoding}
    (h : parse_integer i = some (rem, v)) : ∃ r, i = 105 :: r := by
  match i with
  | [] => exact absurd h (by simp [parse_integer_nil])
  | b :: r =>
    by_cases hb : b = 105
    · exact ⟨r, by rw [hb]⟩
    · rw [parse_integer_head_fail r hb] at h
      exact absurd h (by simp)

theorem parse_integer_some_length {i rem : List Nat} {v : Bencoding}
    (h : parse_integer i = some (rem, v)) : rem.length < i.length := by
  obtain ⟨r, rfl⟩ := parse_integer_some_head h
  rw [parse_integer_cons, if_pos rfl] at h
  match hbig : parse_bigint r with
  | none => rw [hbig] at h; exact absurd h (by simp)
  | some (rest2, n) =>
    rw [hbig] at h
    dsimp only at h
    match hend : parse_end rest2 with
    | none => rw [hend] at h; exact absurd h (by simp)
    | some rest3 =>
      rw [hend] at h
      dsimp only at h
      simp at h
      have h1 := parse_bigint_some_length hbig
      have h2 := congrArg List.length (parse_end_some hend)
      simp at h2
      simp [← h.1]
      omega

theorem parse_string_some_head {i rem : List Nat} {v : Bencoding}
    (h : parse_string i = some (rem, v)) :
    ∃ b r, i = b :: r ∧ (isDigitB b = true ∨ b = 45) := by
  unfold parse_string at h
  match hbig : parse_bigint i with
  | none => rw [hbig] at h; exact absurd h (by simp)
  | some (rest, n) => exact parse_bigint_some_head hbig

theorem parse_string_head_fail {b : Nat} (r : List Nat)
    (hd : isDigitB b = false) (h45 : b ≠ 45) :
    parse_string (b :: r) = none := by
  unfold parse_string
  rw [parse_bigint_head_fail r hd h45]

theorem parse_string_nil : parse_string [] = none := rfl

/-- parse_string only ever builds a Text value (hence the non-Text arm in
the source's dictionary loop is dead code). -/
theorem parse_string_some_string {i rem : List Nat} {v : Bencoding}
    (h : parse_string i = some (rem, v)) : ∃ s, v = Bencoding.string s := by
  unfold parse_string at h
  match hbig : parse_bigint i with
  | none => rw [hbig] at h; exact absurd h (by simp)
  | some (rest, n) =>
    rw [hbig] at h
    dsimp only at h
    by_cases h0 : n < 0
    · rw [if_pos h0] at h; exact absurd h (by simp)
    · rw [if_neg h0] at h
      by_cases h32 : 4294967296 ≤ n
      · rw [if_pos h32] at h; exact absurd h (by simp)
      · rw [if_neg h32] at h
        match rest with
        | [] => exact absurd h (by simp)
        | b :: rest2 =>
          dsimp only at h
          by_cases h58 : b = 58
          · rw [if_pos h58] at h
            by_cases hlen : rest2.length < n.toNat
            · rw [if_pos hlen] at h; exact absurd h (by simp)
            · rw [if_neg hlen] at h
              simp at h
              exact ⟨rest2.take n.toNat, h.2.symm⟩
          · rw [if_neg h58] at h; exact absurd h (by simp)

theorem parse_string_some_length {i rem : List Nat} {v : Bencoding}
    (h : parse_string i = some (rem, v)) : rem.length < i.length := by
  unfold parse_string at h
  match hbig : parse_bigint i with
  | none => rw [hbig] at h; exact absurd h (by simp)
  | some (rest, n) =>
    rw [hbig] at h
    dsimp only at h
    have hlen := parse_bigint_some_length hbig
    by_cases h0 : n < 0
    · rw [if_pos h0] at h; exact absurd h (by simp)
    · rw [if_neg h0] at h
      by_cases h32 : 4294967296 ≤ n
      · rw [if_pos h32] at h; exact absurd h (by simp)
      · rw [if_neg h32] at h
        match rest with
        | [] => exact absurd h (by simp)
        | b :: rest2 =>
          dsimp only at h
          by_cases h58 : b = 58
          · rw [if_pos h58] at h
            by_cases hl : rest2.length < n.toNat
            · rw [if_pos hl] at h; exact absurd h (by simp)
            · rw [if_neg hl] at h
              simp at h
              have : rem.length ≤ rest2.length := by
                rw [← h.1]; simp
              simp at hlen
              omega
          · rw [if_neg h58] at h; exact absurd h (by simp)

theorem parse_list_cons (p : List Nat → Option (List Nat × Bencoding))
    (fuel b : Nat) (r : List Nat) :
    parse_list p fuel (b :: r) =
      if b = 108 then
        match elemsLoop p fuel r with
        | some (rem, vs) => some (rem, Bencoding.list vs)
        | none => none
      else none := rfl

theorem parse_list_nil (p : List Nat → Option (List Nat × Bencoding))
    (fuel : Nat) : parse_list p fuel [] = none := rfl

theorem parse_list_head_fail (p : List Nat → Option (List Nat × Bencoding))
    (fuel : Nat) {b : Nat} (r : List Nat) (hb : b ≠ 108) :
    parse_list p fuel (b :: r) = none := by
  rw [parse_list_cons, if_neg hb]

theorem parse_list_some_head {p : List Nat → Option (List Nat × Bencoding)}
    {fuel : Nat} {i rem : List Nat} {v : Bencoding}
    (h : parse_list p fuel i = some (rem, v)) : ∃ r, i = 108 :: r := by
  match i with
  | [] => exact absurd h (by simp [parse_list_nil])
  | b :: r =>
    by_cases hb : b = 108
    · exact ⟨r, by rw [hb]⟩
    · rw [parse_list_head_fail p fuel r hb] at h
      exact absurd h (by simp)

theorem parse_dictionary_cons (p : List Nat → Option (List Nat × Bencoding))
    (fuel b : Nat) (r : List Nat) :
    parse_dictionary p fuel (b :: r) =
      if b = 100 then
        match pairsLoop p fuel r [] with
        | some (rem, d) => some (rem, Bencoding.dictionary d)
        | none => none
      else none := rfl

theorem parse_dictionary_nil (p : List Nat → Option (List Nat × Bencoding))
    (fuel : Nat) : parse_dictionary p fuel [] = none := rfl

theorem parse_dictionary_head_fail
    (p : List Nat → Option (List Nat × Bencoding)) (fuel : Nat) {b : Nat}
    (r : List Nat) (hb : b ≠ 100) :
    parse_dictionary p fuel (b :: r) = none := by
  rw [parse_dictionary_cons, if_neg hb]

theorem parse_dictionary_some_head
    {p : List Nat → Option (List Nat × Bencoding)} {fuel : Nat}
    {i rem : List Nat} {v : Bencoding}
    (h : parse_dictionary p fuel i = some (rem, v)) : ∃ r, i = 100 :: r := by
  match i with
  | [] => exact absurd h (by simp [parse_dictionary_nil])
  | b :: r =>
    by_cases hb : b = 100
    · exact ⟨r, by rw [hb]⟩
    · rw [parse_dictionary_head_fail p fuel r hb] at h
      exact absurd h (by simp)

theorem orTry_some {r : List Nat × Bencoding}
    {b : Option (List Nat × Bencoding)} : orTry (some r) b = some r := rfl

theorem orTry_none {b : Option (List Nat × Bencoding)} :
    orTry none b = b := rfl

theorem parseVal_zero (i : List Nat) : parseVal 0 i = none := rfl

theorem parseVal_succ (fuel : Nat) (i : List Nat) :
    parseVal (fuel + 1) i =
      orTry (parse_integer i)
        (orTry (parse_list (fun j => parseVal fuel j) fuel i)
          (orTry (parse_dictionary (fun j => parseVal fuel j) fuel i)
            (parse_string i))) := rfl

/-! ## Distance metric lemmas -/

theorem foldl_base256_lt (l : List Nat) (h : ∀ b ∈ l, b < 256) :
    ∀ acc : Nat, l.foldl (fun a b => a * 256 + b) acc < (acc + 1) * 256 ^ l.length := by
  induction l with
  | nil => intro acc; simp
  | cons b t ih =>
    intro acc
    have hb : b < 256 := h b (by simp)
    have ht := ih (fun x hx => h x (by simp [hx])) (acc * 256 + b)
    have step : (acc * 256 + b + 1) * 256 ^ t.length ≤ (acc + 1) * 256 ^ (t.length + 1) := by
      have : acc * 256 + b + 1 ≤ (acc + 1) * 256 := by nlinarith
      calc (acc * 256 + b + 1) * 256 ^ t.length
          ≤ ((acc + 1) * 256) * 256 ^ t.length := by
            exact Nat.mul_le_mul_right _ this
        _ = (acc + 1) * 256 ^ (t.length + 1) := by ring
    simp only [List.foldl_cons, List.length_cons]
    omega

theorem fromBytesBE_lt (l : List Nat) (h : ∀ b ∈ l, b < 256) :
    fromBytesBE l < 256 ^ l.length := by
  have := foldl_base256_lt l h 0
  simpa [fromBytesBE] using this

/-! ## Claim theorems: the distance metric -/

/-- C5: the XOR distance is symmetric, distance(a,b) = distance(b,a),
and satisfies the identity law distance(x,x) = 0, where distance
interprets both identifiers as unsigned big-endian integers and XORs
them. -/
theorem C5_distance_symm_ident :
    (∀ a b : NodeId, a.distance b = b.distance a) ∧
    (∀ x : NodeId, x.distance x = 0) :=
  ⟨fun a b => Nat.xor_comm (fromBytesBE a.bytes) (fromBytesBE b.bytes),
   fun x => Nat.xor_self (fromBytesBE x.bytes)⟩

/-- C10: the XOR distance of two 160-bit identifiers is below 2^160,
although it is returned as an unbounded big integer. -/
theorem C10_distance_lt_two_pow_160 :
    ∀ a b : NodeId, a.distance b < 2 ^ 160 := by
  intro a b
  have ha := fromBytesBE_lt a.bytes a.bytes_lt
  have hb := fromBytesBE_lt b.bytes b.bytes_lt
  rw [a.length_eq] at ha
  rw [b.length_eq] at hb
  have h256 : (256 : Nat) ^ 20 = 2 ^ 160 := by norm_num
  rw [h256] at ha hb
  exact Nat.xor_lt_two_pow ha hb

/-! ## Claim theorems: entry point and string production -/

/-- C4: from_slice succeeds exactly when the dispatcher decodes a value
with an empty remainder; a nonempty remainder or a dispatcher failure is
an error at the from_slice boundary. -/
theorem C4_from_slice_requires_full_consumption :
    ∀ input : List Nat,
      (∀ v, parse input = some ([], v) → from_slice input = some v) ∧
      (∀ b rem v, parse input = some (b :: rem, v) → from_slice input = none) ∧
      (parse input = none → from_slice input = none) := by
  intro input
  refine ⟨?_, ?_, ?_⟩
  · intro v h; simp [from_slice, h]
  · intro b rem v h; simp [from_slice, h]
  · intro h; simp [from_slice, h]

/-- Witness for C4 at concrete inputs: a fully consumed integer, a
string with trailing bytes, and a failing input. -/
theorem C4_witness :
    from_slice (strBytes "i28e") = some (Bencoding.integer 28) ∧
    from_slice (strBytes "4:12345") = none ∧
    from_slice (strBytes "xyz") = none :=
  ⟨(C4_from_slice_requires_full_consumption (strBytes "i28e")).1
      (Bencoding.integer 28) rfl,
   (C4_from_slice_requires_full_consumption (strBytes "4:12345")).2.1
      53 [] (Bencoding.string (strBytes "1234")) rfl,
   (C4_from_slice_requires_full_consumption (strBytes "xyz")).2.2 rfl⟩

/-- C3: the string production parses a length with the integer lexer,
fails on a negative length or one that does not fit an unsigned 32-bit
quantity, expects a colon, consumes exactly that many payload bytes
(failing when fewer remain), and on the spec examples parses 4:12345 to
Text 1234 with remainder 5 and fails on 5:abc. -/
theorem C3_string_production :
    (∀ input rest n, parse_bigint input = some (rest, n) → n < 0 →
       parse_string input = none) ∧
    (∀ input rest n, parse_bigint input = some (rest, n) → 4294967296 ≤ n →
       parse_string input = none) ∧
    (∀ input rest n r2, parse_bigint input = some (rest, n) → 0 ≤ n →
       n < 4294967296 → rest = 58 :: r2 →
       (r2.length < n.toNat → parse_string input = none) ∧
       (n.toNat ≤ r2.length →
          parse_string input =
            some (r2.drop n.toNat, Bencoding.string (r2.take n.toNat)))) ∧
    parse (strBytes "4:12345") =
      some (strBytes "5", Bencoding.string (strBytes "1234")) ∧
    parse (strBytes "5:abc") = none := by
  refine ⟨?_, ?_, ?_, rfl, rfl⟩
  · intro input rest n h hneg
    unfold parse_string
    rw [h]
    dsimp only
    rw [if_pos hneg]
  · intro input rest n h h32
    unfold parse_string
    rw [h]
    dsimp only
    rw [if_neg (by omega), if_pos h32]
  · intro input rest n r2 h h0 h32 hrest
    subst hrest
    constructor
    · intro hlen
      unfold parse_string
      rw [h]
      dsimp only
      rw [if_neg (by omega), if_neg (by omega), if_pos rfl, if_pos hlen]
    · intro hlen
      unfold parse_string
      rw [h]
      dsimp only
      rw [if_neg (by omega), if_neg (by omega), if_pos rfl,
        if_neg (by omega)]

/-- Witness for C3 at concrete inputs: a negative length, a length of
2^32, a too-short payload, and a successful bounded read. -/
theorem C3_witness :
    parse_string (strBytes "-1:x") = none ∧
    parse_string (strBytes "4294967296:") = none ∧
    parse_string (strBytes "3:ab") = none ∧
    parse_string (strBytes "3:abcd") =
      some (strBytes "d", Bencoding.string (strBytes "abc")) := by
  refine ⟨?_, ?_, ?_, ?_⟩
  · exact C3_string_production.1 (strBytes "-1:x") (strBytes ":x") (-1)
      rfl (by decide)
  · exact C3_string_production.2.1 (strBytes "4294967296:") (strBytes ":")
      4294967296 rfl (by decide)
  · exact ((C3_string_production.2.2.1 (strBytes "3:ab") (strBytes ":ab") 3
      (strBytes "ab") rfl (by decide) (by decide) rfl).1 (by decide))
  · have := ((C3_string_production.2.2.1 (strBytes "3:abcd") (strBytes ":abcd") 3
      (strBytes "abcd") rfl (by decide) (by decide) rfl).2 (by decide))
    simpa using this

/-! ## Claim theorems: integer production -/

/-- C7: the integer production is the literal i, an optional sign, one
or more decimal digits of arbitrary magnitude, then the literal e; it
fails when no digit follows the optional sign; concretely it decodes
i-123456789123456789e and rejects an input with a space instead of
digits. -/
theorem C7_integer_production :
    (∀ digits rest, digits ≠ [] → (∀ b ∈ digits, isDigitB b = true) →
       parse_integer (105 :: (digits ++ 101 :: rest)) =
         some (rest, Bencoding.integer (natOf digits)) ∧
       parse_integer (105 :: 45 :: (digits ++ 101 :: rest)) =
         some (rest, Bencoding.integer (-(natOf digits : Int)))) ∧
    (∀ b r, isDigitB b = false → b ≠ 45 → parse_bigint (b :: r) = none) ∧
    (∀ b r, isDigitB b = false → parse_bigint (45 :: b :: r) = none) ∧
    parse_bigint [] = none ∧ parse_bigint [45] = none ∧
    parse (strBytes "i-123456789123456789e") =
      some ([], Bencoding.integer (-123456789123456789)) ∧
    parse (strBytes "i e") = none := by
  refine ⟨?_, ?_, ?_, parse_bigint_nil, parse_bigint_sign_nil, rfl, rfl⟩
  · intro digits rest hne hall
    constructor
    · rw [parse_integer_cons, if_pos rfl,
        bigint_digits digits 101 rest hne hall not_digit_101]
      dsimp only
      rw [parse_end_cons, if_pos rfl]
    · rw [parse_integer_cons, if_pos rfl, ← List.cons_append,
        bigint_digits_neg digits 101 rest hne hall not_digit_101]
      dsimp only
      rw [parse_end_cons, if_pos rfl]
  · intro b r hb h45
    exact parse_bigint_head_fail r hb h45
  · intro b r hb
    exact parse_bigint_sign_head_fail r hb

/-- Witness for C7 at a concrete digit run: the encoding i123e decodes
to the integer 123 and i-123e to -123. -/
theorem C7_witness :
    parse_integer (105 :: ([49, 50, 51] ++ 101 :: [])) =
      some ([], Bencoding.integer 123) ∧
    parse_integer (105 :: 45 :: ([49, 50, 51] ++ 101 :: [])) =
      some ([], Bencoding.integer (-123)) :=
  (C7_integer_production.1 [49, 50, 51] [] (by decide) (by decide))

/-! ## Dictionary model lemmas -/

theorem lookupA_insertA_self (d : List (List Nat × Bencoding))
    (k : List Nat) (v : Bencoding) : lookupA (insertA d k v) k = some v := by
  induction d with
  | nil => simp [insertA, lookupA]
  | cons hd t ih =>
    obtain ⟨k', v'⟩ := hd
    by_cases hk : k' = k
    · simp [insertA, hk, lookupA]
    · simp [insertA, hk, lookupA, ih]

theorem lookupA_insertA_other (d : List (List Nat × Bencoding))
    (k : List Nat) (v : Bencoding) (k' : List Nat) (hk : k' ≠ k) :
    lookupA (insertA d k v) k' = lookupA d k' := by
  induction d with
  | nil =>
    simp only [insertA, lookupA]
    rw [if_neg (fun h => hk h.symm)]
  | cons hd t ih =>
    obtain ⟨k0, v0⟩ := hd
    by_cases h0 : k0 = k
    · subst h0
      simp only [insertA, if_pos rfl, lookupA]
      rw [if_neg (fun h => hk h.symm), if_neg (fun h => hk h.symm)]
    · simp only [insertA, if_neg h0, lookupA]
      by_cases h1 : k0 = k'
      · rw [if_pos h1, if_pos h1]
      · rw [if_neg h1, if_neg h1, ih]

/-! ## Claim theorems: dictionary production -/

/-- C6: dictionary keys are decoded by the string production, so every
key is a Text value and a non-Text value in key position makes the whole
parse fail; a duplicated key keeps the value decoded last; the spec
example decodes to the two-entry dictionary. -/
theorem C6_dictionary_keys_last_write_wins :
    (∀ input rem v, parse_string input = some (rem, v) →
       ∃ s, v = Bencoding.string s) ∧
    (∀ p fuel acc b rest, isDigitB b = false → b ≠ 45 → b ≠ 101 →
       pairsLoop p fuel (b :: rest) acc = none) ∧
    (∀ d k v, lookupA (insertA d k v) k = some v) ∧
    (∀ d k v k', k' ≠ k → lookupA (insertA d k v) k' = lookupA d k') ∧
    parse (strBytes "di1e3:fooe") = none ∧
    parse (strBytes "d3:cow3:moo4:spam4:eggse") =
      some ([], Bencoding.dictionary
        [(strBytes "cow", Bencoding.string (strBytes "moo")),
         (strBytes "spam", Bencoding.string (strBytes "eggs"))]) ∧
    parse (strBytes "d1:a1:x1:a1:ye") =
      some ([], Bencoding.dictionary
        [(strBytes "a", Bencoding.string (strBytes "y"))]) := by
  refine ⟨fun input rem v h => parse_string_some_string h, ?_,
    lookupA_insertA_self, lookupA_insertA_other, rfl, rfl, rfl⟩
  intro p fuel acc b rest hd h45 h101
  match fuel with
  | 0 => rfl
  | fuel + 1 =>
    show pairsLoop p (fuel + 1) (b :: rest) acc = none
    unfold pairsLoop
    rw [parse_end_cons, if_neg h101]
    dsimp only
    rw [parse_string_head_fail rest hd h45]

/-- Witness for C6: the general arms applied at one concrete map and at
one non-string key head. -/
theorem C6_witness :
    pairsLoop parse_string 3 (105 :: strBytes "1e3:fooe") [] = none ∧
    lookupA (insertA [(strBytes "a", Bencoding.integer 1)]
      (strBytes "a") (Bencoding.integer 2)) (strBytes "a") =
        some (Bencoding.integer 2) ∧
    lookupA (insertA [(strBytes "a", Bencoding.integer 1)]
      (strBytes "b") (Bencoding.integer 2)) (strBytes "a") =
        some (Bencoding.integer 1) := by
  refine ⟨C6_dictionary_keys_last_write_wins.2.1 parse_string 3 [] 105
      (strBytes "1e3:fooe") (by decide) (by decide) (by decide), ?_, ?_⟩
  · exact C6_dictionary_keys_last_write_wins.2.2.1
      [(strBytes "a", Bencoding.integer 1)] (strBytes "a") (Bencoding.integer 2)
  · have := C6_dictionary_keys_last_write_wins.2.2.2.1
      [(strBytes "a", Bencoding.integer 1)] (strBytes "b")
      (Bencoding.integer 2) (strBytes "a") (by decide)
    rw [this]
    rfl

/-! ## Stable-minimum lemmas for closest -/

/-- The minStep fold computes the first minimum: the result occurs in
the list at a position k, is a lower bound of every element, and is
strictly below every element at an earlier position. -/
theorem foldl_minStep_first (l : List (Nat × Nat)) (p : Nat × Nat) :
    ∃ k, ∃ hk : k < (p :: l).length,
      l.foldl minStep p = (p :: l)[k] ∧
      (∀ j, ∀ hj : j < (p :: l).length,
        (l.foldl minStep p).2 ≤ ((p :: l)[j]).2) ∧
      (∀ j, ∀ hj : j < (p :: l).length, j < k →
        (l.foldl minStep p).2 < ((p :: l)[j]).2) := by
  induction l generalizing p with
  | nil =>
    refine ⟨0, by simp, by simp, ?_, ?_⟩
    · intro j hj
      simp at hj
      subst hj
      simp
    · intro j hj hlt
      omega
  | cons q t ih =>
    by_cases hlt : q.2 < p.2
    · have hstep : minStep p q = q := by simp [minStep, hlt]
      have hfold : (q :: t).foldl minStep p = t.foldl minStep q := by
        rw [List.foldl_cons, hstep]
      rw [hfold]
      obtain ⟨k, hk, heq, hmin, hfirst⟩ := ih (minStep p q)
      rw [hstep] at heq hmin hfirst hk
      refine ⟨k + 1, by simpa using hk, by simpa using heq, ?_, ?_⟩
      · intro j hj
        match j with
        | 0 =>
          have h0 := hmin 0 (by simp)
          simp at h0 ⊢
          omega
        | j + 1 =>
          have hj2 : j < (q :: t).length := by simpa using hj
          have := hmin j hj2
          simpa using this
      · intro j hj hjk
        match j with
        | 0 =>
          have h0 := hmin 0 (by simp)
          simp at h0 ⊢
          omega
        | j + 1 =>
          have hj2 : j < (q :: t).length := by simpa using hj
          have := hfirst j hj2 (by omega)
          simpa using this
    · have hstep : minStep p q = p := by simp [minStep, hlt]
      have hfold : (q :: t).foldl minStep p = t.foldl minStep p := by
        rw [List.foldl_cons, hstep]
      rw [hfold]
      obtain ⟨k, hk, heq, hmin, hfirst⟩ := ih (minStep p q)
      rw [hstep] at heq hmin hfirst hk
      have hle : p.2 ≤ q.2 := by omega
      match k, hk with
      | 0, hk =>
        have heq0 : t.foldl minStep p = p := by simpa using heq
        refine ⟨0, by simp, by simpa using heq0, ?_, ?_⟩
        · intro j hj
          match j with
          | 0 =>
            have := hmin 0 (by simp)
            simpa using this
          | 1 =>
            have := hmin 0 (by simp)
            simp at this ⊢
            omega
          | j + 2 =>
            have hj2 : j + 1 < (p :: t).length := by simpa using hj
            have := hmin (j + 1) hj2
            simpa using this
        · intro j hj hjk
          omega
      | k0 + 1, hk =>
        have hk0 : k0 < t.length := by simpa using hk
        have heqt : t.foldl minStep p = t[k0] := by simpa using heq
        refine ⟨k0 + 2, by simpa using hk0, by simpa using heqt, ?_, ?_⟩
        · intro j hj
          match j with
          | 0 =>
            have := hmin 0 (by simp)
            simpa using this
          | 1 =>
            have := hmin 0 (by simp)
            simp at this ⊢
            omega
          | j + 2 =>
            have hj2 : j + 1 < (p :: t).length := by simpa using hj
            have := hmin (j + 1) hj2
            simpa using this
        · intro j hj hjk
          match j with
          | 0 =>
            have := hfirst 0 (by simp) (by omega)
            simpa using this
          | 1 =>
            have := hfirst 0 (by simp) (by omega)
            simp at this ⊢
            omega
          | j + 2 =>
            have hj2 : j + 1 < (p :: t).length := by simpa using hj
            have := hfirst (j + 1) hj2 (by omega)
            simpa using this

/-! ## Claim theorems: closest -/

/-- Transfer of positional indexing along an equality of lists. -/
theorem get_eq_of_list_eq {α : Type} {l l2 : List α} (h : l = l2) (j : Nat)
    (hj : j < l2.length) :
    l2.get ⟨j, hj⟩ = l.get ⟨j, by rw [h]; exact hj⟩ := by
  subst h
  rfl

/-- C2: closest returns the candidate with minimal distance, the
earliest one on ties (the element at position i is a lower bound of all
candidates and strictly below every earlier candidate), and returns the
identifier itself when the candidate sequence is empty. -/
theorem C2_closest_stable_minimum :
    ∀ (x : NodeId) (cs : List NodeId),
      (cs = [] → x.closest cs = x) ∧
      (cs ≠ [] → ∃ i, ∃ hi : i < cs.length,
        x.closest cs = cs[i] ∧
        (∀ j, ∀ hj : j < cs.length,
          x.distance cs[i] ≤ x.distance cs[j]) ∧
        (∀ j, ∀ hj : j < cs.length, j < i →
          x.distance cs[i] < x.distance cs[j])) := by
  intro x cs
  constructor
  · intro h
    subst h
    rfl
  · intro hne
    have hmlen :
        ((cs.enum).map (fun q => (q.1, x.distance q.2))).length = cs.length := by
      simp
    have hmne : (cs.enum).map (fun q => (q.1, x.distance q.2)) ≠ [] := by
      intro h
      apply hne
      have := congrArg List.length h
      rw [hmlen] at this
      simpa using List.eq_nil_of_length_eq_zero (by simpa using this)
    obtain ⟨p0, m2, hm2⟩ := List.exists_cons_of_ne_nil hmne
    have hlen2 : (p0 :: m2).length = cs.length := by
      rw [← hm2, hmlen]
    obtain ⟨k, hk, heq, hmin, hfirst⟩ := foldl_minStep_first m2 p0
    have hkcs : k < cs.length := by omega
    have hconv : ∀ j, ∀ hj : j < (p0 :: m2).length, ∀ hjc : j < cs.length,
        (p0 :: m2)[j] = (j, x.distance cs[j]) := by
      intro j hj hjc
      show (p0 :: m2).get ⟨j, hj⟩ = _
      rw [get_eq_of_list_eq hm2 j hj]
      simp
    have heq2 : m2.foldl minStep p0 = (k, x.distance cs[k]) := by
      rw [heq]
      exact hconv k hk hkcs
    refine ⟨k, hkcs, ?_, ?_, ?_⟩
    · unfold NodeId.closest
      rw [hm2]
      dsimp only [minByFirst]
      rw [heq2]
      dsimp only
      exact List.getD_eq_getElem cs x hkcs
    · intro j hj
      have hjm : j < (p0 :: m2).length := by omega
      have := hmin j hjm
      rw [heq2, hconv j hjm hj] at this
      exact this
    · intro j hj hjk
      have hjm : j < (p0 :: m2).length := by omega
      have := hfirst j hjm hjk
      rw [heq2, hconv j hjm hj] at this
      exact this

/-- Witness for C2: the empty-candidates fallback at a concrete
identifier, and the stable minimum on a concrete two-element list. -/
theorem C2_witness : zeroId.closest [] = zeroId :=
  (C2_closest_stable_minimum zeroId []).1 rfl

/-! ## Loop unfolding equations and consumption lemmas -/

theorem elemsLoop_zero (p : List Nat → Option (List Nat × Bencoding))
    (i : List Nat) : elemsLoop p 0 i = none := rfl

theorem elemsLoop_succ (p : List Nat → Option (List Nat × Bencoding))
    (fl : Nat) (i : List Nat) :
    elemsLoop p (fl + 1) i =
      match parse_end i with
      | some rest => some (rest, [])
      | none =>
        match p i with
        | some (rem, v) =>
          match elemsLoop p fl rem with
          | some (rem2, vs) => some (rem2, v :: vs)
          | none => none
        | none => none := rfl

theorem pairsLoop_zero (p : List Nat → Option (List Nat × Bencoding))
    (i : List Nat) (acc : List (List Nat × Bencoding)) :
    pairsLoop p 0 i acc = none := rfl

theorem pairsLoop_succ (p : List Nat → Option (List Nat × Bencoding))
    (fl : Nat) (i : List Nat) (acc : List (List Nat × Bencoding)) :
    pairsLoop p (fl + 1) i acc =
      match parse_end i with
      | some rest => some (rest, acc)
      | none =>
        match parse_string i with
        | some (rem, Bencoding.string k) =>
          match p rem with
          | some (rem2, v) => pairsLoop p fl rem2 (insertA acc k v)
          | none => none
        | some (_, _) => none
        | none => none := rfl

/-- A successful element loop consumes at least the terminator byte. -/
theorem elemsLoop_some_length
    {p : List Nat → Option (List Nat × Bencoding)}
    (hp : ∀ i rem v, p i = some (rem, v) → rem.length < i.length) :
    ∀ fuel i rem vs, elemsLoop p fuel i = some (rem, vs) →
      rem.length < i.length := by
  intro fuel
  induction fuel with
  | zero =>
    intro i rem vs h
    exact absurd h (by simp [elemsLoop_zero])
  | succ fl ih =>
    intro i rem vs h
    rw [elemsLoop_succ] at h
    match hend : parse_end i with
    | some rest =>
      rw [hend] at h
      dsimp only at h
      simp only [Option.some.injEq, Prod.mk.injEq] at h
      have hi := parse_end_some hend
      rw [hi, ← h.1]
      simp
    | none =>
      rw [hend] at h
      dsimp only at h
      match hp1 : p i with
      | none => rw [hp1] at h; exact absurd h (by simp)
      | some (rem1, v) =>
        rw [hp1] at h
        dsimp only at h
        match hloop : elemsLoop p fl rem1 with
        | none => rw [hloop] at h; exact absurd h (by simp)
        | some (rem2, vs2) =>
          rw [hloop] at h
          simp only [Option.some.injEq, Prod.mk.injEq] at h
          have c1 := hp i rem1 v hp1
          have c2 := ih rem1 rem2 vs2 hloop
          rw [← h.1]
          omega

/-- A successful pair loop consumes at least the terminator byte. -/
theorem pairsLoop_some_length
    {p : List Nat → Option (List Nat × Bencoding)}
    (hp : ∀ i rem v, p i = some (rem, v) → rem.length < i.length) :
    ∀ fuel i acc rem ps, pairsLoop p fuel i acc = some (rem, ps) →
      rem.length < i.length := by
  intro fuel
  induction fuel with
  | zero =>
    intro i acc rem ps h
    exact absurd h (by simp [pairsLoop_zero])
  | succ fl ih =>
    intro i acc rem ps h
    rw [pairsLoop_succ] at h
    match hend : parse_end i with
    | some rest =>
      rw [hend] at h
      dsimp only at h
      simp only [Option.some.injEq, Prod.mk.injEq] at h
      have hi := parse_end_some hend
      rw [hi, ← h.1]
      simp
    | none =>
      rw [hend] at h
      dsimp only at h
      match hstr : parse_string i with
      | none => rw [hstr] at h; exact absurd h (by simp)
      | some (rem1, w) =>
        rw [hstr] at h
        match w with
        | Bencoding.integer n => exact absurd h (by simp)
        | Bencoding.list l => exact absurd h (by simp)
        | Bencoding.dictionary d => exact absurd h (by simp)
        | Bencoding.string k =>
          dsimp only at h
          match hp1 : p rem1 with
          | none => rw [hp1] at h; exact absurd h (by simp)
          | some (rem2, v) =>
            rw [hp1] at h
            dsimp only at h
            have c0 := parse_string_some_length hstr
            have c1 := hp rem1 rem2 v hp1
            have c2 := ih rem2 (insertA acc k v) rem ps h
            omega

/-- A successful list production consumes at least two bytes. -/
theorem parse_list_some_length
    {p : List Nat → Option (List Nat × Bencoding)} {fuel : Nat}
    {i rem : List Nat} {v : Bencoding}
    (hp : ∀ i2 rem2 v2, p i2 = some (rem2, v2) → rem2.length < i2.length)
    (h : parse_list p fuel i = some (rem, v)) : rem.length < i.length := by
  obtain ⟨r, rfl⟩ := parse_list_some_head h
  rw [parse_list_cons, if_pos rfl] at h
  match hloop : elemsLoop p fuel r with
  | none => rw [hloop] at h; exact absurd h (by simp)
  | some (rem2, vs) =>
    rw [hloop] at h
    dsimp only at h
    simp only [Option.some.injEq, Prod.mk.injEq] at h
    have := elemsLoop_some_length hp fuel r rem2 vs hloop
    rw [← h.1]
    simp
    omega

/-- A successful dictionary production consumes at least two bytes. -/
theorem parse_dictionary_some_length
    {p : List Nat → Option (List Nat × Bencoding)} {fuel : Nat}
    {i rem : List Nat} {v : Bencoding}
    (hp : ∀ i2 rem2 v2, p i2 = some (rem2, v2) → rem2.length < i2.length)
    (h : parse_dictionary p fuel i = some (rem, v)) :
    rem.length < i.length := by
  obtain ⟨r, rfl⟩ := parse_dictionary_some_head h
  rw [parse_dictionary_cons, if_pos rfl] at h
  match hloop : pairsLoop p fuel r [] with
  | none => rw [hloop] at h; exact absurd h (by simp)
  | some (rem2, d) =>
    rw [hloop] at h
    dsimp only at h
    simp only [Option.some.injEq, Prod.mk.injEq] at h
    have := pairsLoop_some_length hp fuel r [] rem2 d hloop
    rw [← h.1]
    simp
    omega

/-- Every successful dispatch consumes at least one byte. -/
theorem parseVal_some_length :
    ∀ fuel i rem v, parseVal fuel i = some (rem, v) →
      rem.length < i.length := by
  intro fuel
  induction fuel with
  | zero =>
    intro i rem v h
    exact absurd h (by simp [parseVal_zero])
  | succ f ih =>
    intro i rem v h
    rw [parseVal_succ] at h
    match hint : parse_integer i with
    | some r =>
      rw [hint, orTry_some] at h
      simp only [Option.some.injEq] at h
      subst h
      exact parse_integer_some_length hint
    | none =>
      rw [hint, orTry_none] at h
      match hl : parse_list (fun j => parseVal f j) f i with
      | some r =>
        rw [hl, orTry_some] at h
        simp only [Option.some.injEq] at h
        subst h
        exact parse_list_some_length (fun a b c hh => ih a b c hh) hl
      | none =>
        rw [hl, orTry_none] at h
        match hd : parse_dictionary (fun j => parseVal f j) f i with
        | some r =>
          rw [hd, orTry_some] at h
          simp only [Option.some.injEq] at h
          subst h
          exact parse_dictionary_some_length (fun a b c hh => ih a b c hh) hd
        | none =>
          rw [hd, orTry_none] at h
          exact parse_string_some_length h

/-! ## Fuel adequacy

A successful parse at any fuel is reproduced at every fuel at least the
number of consumed bytes; hence the result stabilises once the fuel
exceeds the input length, which witnesses termination of the source's
unbounded recursion. -/

theorem fuel_transfer : ∀ fuel : Nat,
    (∀ i rem v, parseVal fuel i = some (rem, v) →
       ∀ g, i.length - rem.length ≤ g → parseVal g i = some (rem, v)) ∧
    (∀ floop i rem vs,
       elemsLoop (fun j => parseVal fuel j) floop i = some (rem, vs) →
       ∀ g gl, i.length - rem.length ≤ g → i.length - rem.length ≤ gl →
         elemsLoop (fun j => parseVal g j) gl i = some (rem, vs)) ∧
    (∀ floop i acc rem ps,
       pairsLoop (fun j => parseVal fuel j) floop i acc = some (rem, ps) →
       ∀ g gl, i.length - rem.length ≤ g → i.length - rem.length ≤ gl →
         pairsLoop (fun j => parseVal g j) gl i acc = some (rem, ps)) := by
  intro fuel
  induction fuel with
  | zero =>
    refine ⟨?_, ?_, ?_⟩
    · intro i rem v h
      exact absurd h (by simp [parseVal_zero])
    · intro floop
      induction floop with
      | zero =>
        intro i rem vs h
        exact absurd h (by simp [elemsLoop_zero])
      | succ fl ihl =>
        intro i rem vs h g gl hg hgl
        rw [elemsLoop_succ] at h
        match hend : parse_end i with
        | some rest =>
          rw [hend] at h
          dsimp only at h
          simp only [Option.some.injEq, Prod.mk.injEq] at h
          obtain ⟨h1, h2⟩ := h
          rw [← h1, ← h2]
          rw [← h1] at hgl
          have hi := parse_end_some hend
          have hil : i.length = rest.length + 1 := by rw [hi]; simp
          obtain ⟨gl0, rfl⟩ : ∃ gl0, gl = gl0 + 1 := ⟨gl - 1, by omega⟩
          rw [elemsLoop_succ, hend]
        | none =>
          rw [hend] at h
          dsimp only at h
          simp [parseVal_zero] at h
    · intro floop
      induction floop with
      | zero =>
        intro i acc rem ps h
        exact absurd h (by simp [pairsLoop_zero])
      | succ fl ihl =>
        intro i acc rem ps h g gl hg hgl
        rw [pairsLoop_succ] at h
        match hend : parse_end i with
        | some rest =>
          rw [hend] at h
          dsimp only at h
          simp only [Option.some.injEq, Prod.mk.injEq] at h
          obtain ⟨h1, h2⟩ := h
          rw [← h1, ← h2]
          rw [← h1] at hgl
          have hi := parse_end_some hend
          have hil : i.length = rest.length + 1 := by rw [hi]; simp
          obtain ⟨gl0, rfl⟩ : ∃ gl0, gl = gl0 + 1 := ⟨gl - 1, by omega⟩
          rw [pairsLoop_succ, hend]
        | none =>
          rw [hend] at h
          dsimp only at h
          match hstr : parse_string i with
          | none => rw [hstr] at h; exact absurd h (by simp)
          | some (rem1, w) =>
            rw [hstr] at h
            match w with
            | Bencoding.integer n => exact absurd h (by simp)
            | Bencoding.list l => exact absurd h (by simp)
            | Bencoding.dictionary dd => exact absurd h (by simp)
            | Bencoding.string k =>
              dsimp only at h
              simp [parseVal_zero] at h
  | succ f ih =>
    obtain ⟨ihPV, ihE, ihP⟩ := ih
    have hPV : ∀ i rem v, parseVal (f + 1) i = some (rem, v) →
        ∀ g, i.length - rem.length ≤ g → parseVal g i = some (rem, v) := by
      intro i rem v h g hg
      have hcons : rem.length < i.length :=
        parseVal_some_length (f + 1) i rem v h
      obtain ⟨g0, rfl⟩ : ∃ g0, g = g0 + 1 := ⟨g - 1, by omega⟩
      rw [parseVal_succ] at h
      rw [parseVal_succ]
      match hint : parse_integer i with
      | some r =>
        rw [hint, orTry_some] at h
        rw [orTry_some]
        exact h
      | none =>
        rw [hint, orTry_none] at h
        rw [orTry_none]
        match hl : parse_list (fun j => parseVal f j) f i with
        | some r =>
          rw [hl, orTry_some] at h
          simp only [Option.some.injEq] at h
          subst h
          obtain ⟨ri, rfl⟩ := parse_list_some_head hl
          rw [parse_list_cons, if_pos rfl] at hl
          match hloop : elemsLoop (fun j => parseVal f j) f ri with
          | none => rw [hloop] at hl; exact absurd hl (by simp)
          | some (rem2, vs) =>
            rw [hloop] at hl
            dsimp only at hl
            simp only [Option.some.injEq, Prod.mk.injEq] at hl
            obtain ⟨h1, h2⟩ := hl
            rw [h1] at hloop
            have hlen : rem.length < ri.length :=
              elemsLoop_some_length
                (fun a b c hh => parseVal_some_length f a b c hh) f ri rem vs
                hloop
            have htr := ihE f ri rem vs hloop g0 g0
              (by simp at hg hcons ⊢; omega) (by simp at hg hcons ⊢; omega)
            have hnew : parse_list (fun j => parseVal g0 j) g0 (108 :: ri) =
                some (rem, Bencoding.list vs) := by
              rw [parse_list_cons, if_pos rfl, htr]
            rw [hnew, ← h2, orTry_some]
        | none =>
          rw [hl, orTry_none] at h
          match hd : parse_dictionary (fun j => parseVal f j) f i with
          | some r =>
            rw [hd, orTry_some] at h
            simp only [Option.some.injEq] at h
            subst h
            obtain ⟨ri, rfl⟩ := parse_dictionary_some_head hd
            rw [parse_dictionary_cons, if_pos rfl] at hd
            match hloop : pairsLoop (fun j => parseVal f j) f ri [] with
            | none => rw [hloop] at hd; exact absurd hd (by simp)
            | some (rem2, dd) =>
              rw [hloop] at hd
              dsimp only at hd
              simp only [Option.some.injEq, Prod.mk.injEq] at hd
              obtain ⟨h1, h2⟩ := hd
              rw [h1] at hloop
              have hlen : rem.length < ri.length :=
                pairsLoop_some_length
                  (fun a b c hh => parseVal_some_length f a b c hh) f ri []
                  rem dd hloop
              have htr := ihP f ri [] rem dd hloop g0 g0
                (by simp at hg hcons ⊢; omega) (by simp at hg hcons ⊢; omega)
              have hfaill : parse_list (fun j => parseVal g0 j) g0 (100 :: ri) =
                  none := parse_list_head_fail _ _ _ (by omega)
              have hnew :
                  parse_dictionary (fun j => parseVal g0 j) g0 (100 :: ri) =
                    some (rem, Bencoding.dictionary dd) := by
                rw [parse_dictionary_cons, if_pos rfl, htr]
              rw [hfaill, orTry_none, hnew, ← h2, orTry_some]
          | none =>
            rw [hd, orTry_none] at h
            obtain ⟨b, r, rfl, hb⟩ := parse_string_some_head h
            have hbl : b ≠ 108 := by
              rcases hb with hb | hb
              · simp [isDigitB] at hb; omega
              · omega
            have hbd : b ≠ 100 := by
              rcases hb with hb | hb
              · simp [isDigitB] at hb; omega
              · omega
            rw [parse_list_head_fail _ _ _ hbl, orTry_none,
              parse_dictionary_head_fail _ _ _ hbd, orTry_none]
            exact h
    have hElems : ∀ floop i rem vs,
        elemsLoop (fun j => parseVal (f + 1) j) floop i = some (rem, vs) →
        ∀ g gl, i.length - rem.length ≤ g → i.length - rem.length ≤ gl →
          elemsLoop (fun j => parseVal g j) gl i = some (rem, vs) := by
      intro floop
      induction floop with
      | zero =>
        intro i rem vs h
        exact absurd h (by simp [elemsLoop_zero])
      | succ fl ihl =>
        intro i rem vs h g gl hg hgl
        rw [elemsLoop_succ] at h
        match hend : parse_end i with
        | some rest =>
          rw [hend] at h
          dsimp only at h
          simp only [Option.some.injEq, Prod.mk.injEq] at h
          obtain ⟨h1, h2⟩ := h
          rw [← h1, ← h2]
          rw [← h1] at hgl
          have hi := parse_end_some hend
          have hil : i.length = rest.length + 1 := by rw [hi]; simp
          obtain ⟨gl0, rfl⟩ : ∃ gl0, gl = gl0 + 1 := ⟨gl - 1, by omega⟩
          rw [elemsLoop_succ, hend]
        | none =>
          rw [hend] at h
          dsimp only at h
          match hp1 : parseVal (f + 1) i with
          | none => rw [hp1] at h; exact absurd h (by simp)
          | some (rem1, v) =>
            rw [hp1] at h
            dsimp only at h
            match hloop : elemsLoop (fun j => parseVal (f + 1) j) fl rem1 with
            | none => rw [hloop] at h; exact absurd h (by simp)
            | some (rem2, vs2) =>
              rw [hloop] at h
              simp only [Option.some.injEq, Prod.mk.injEq] at h
              obtain ⟨h1, h2⟩ := h
              rw [h1] at hloop
              have c1 := parseVal_some_length (f + 1) i rem1 v hp1
              have c2 := elemsLoop_some_length
                (parseVal_some_length (f + 1)) fl rem1 rem vs2 hloop
              obtain ⟨gl0, rfl⟩ : ∃ gl0, gl = gl0 + 1 := ⟨gl - 1, by omega⟩
              rw [elemsLoop_succ, hend]
              dsimp only
              rw [hPV i rem1 v hp1 g (by omega)]
              dsimp only
              rw [ihl rem1 rem vs2 hloop g gl0 (by omega) (by omega), ← h2]
    have hPairs : ∀ floop i acc rem ps,
        pairsLoop (fun j => parseVal (f + 1) j) floop i acc = some (rem, ps) →
        ∀ g gl, i.length - rem.length ≤ g → i.length - rem.length ≤ gl →
          pairsLoop (fun j => parseVal g j) gl i acc = some (rem, ps) := by
      intro floop
      induction floop with
      | zero =>
        intro i acc rem ps h
        exact absurd h (by simp [pairsLoop_zero])
      | succ fl ihl =>
        intro i acc rem ps h g gl hg hgl
        rw [pairsLoop_succ] at h
        match hend : parse_end i with
        | some rest =>
          rw [hend] at h
          dsimp only at h
          simp only [Option.some.injEq, Prod.mk.injEq] at h
          obtain ⟨h1, h2⟩ := h
          rw [← h1, ← h2]
          rw [← h1] at hgl
          have hi := parse_end_some hend
          have hil : i.length = rest.length + 1 := by rw [hi]; simp
          obtain ⟨gl0, rfl⟩ : ∃ gl0, gl = gl0 + 1 := ⟨gl - 1, by omega⟩
          rw [pairsLoop_succ, hend]
        | none =>
          rw [hend] at h
          dsimp only at h
          match hstr : parse_string i with
          | none => rw [hstr] at h; exact absurd h (by simp)
          | some (rem1, w) =>
            rw [hstr] at h
            match w with
            | Bencoding.integer n => exact absurd h (by simp)
            | Bencoding.list l => exact absurd h (by simp)
            | Bencoding.dictionary dd => exact absurd h (by simp)
            | Bencoding.string k =>
              dsimp only at h
              match hp1 : parseVal (f + 1) rem1 with
              | none => rw [hp1] at h; exact absurd h (by simp)
              | some (rem2, v) =>
                rw [hp1] at h
                dsimp only at h
                have c0 := parse_string_some_length hstr
                have c1 := parseVal_some_length (f + 1) rem1 rem2 v hp1
                have c2 := pairsLoop_some_length
                  (parseVal_some_length (f + 1)) fl rem2 (insertA acc k v)
                  rem ps h
                obtain ⟨gl0, rfl⟩ : ∃ gl0, gl = gl0 + 1 := ⟨gl - 1, by omega⟩
                rw [pairsLoop_succ, hend]
                dsimp only
                rw [hstr]
                dsimp only
                rw [hPV rem1 rem2 v hp1 g (by omega)]
                dsimp only
                exact ihl rem2 (insertA acc k v) rem ps h g gl0 (by omega)
                  (by omega)
    exact ⟨hPV, hElems, hPairs⟩

/-- Any fuel above the input length computes the same result as parse. -/
theorem parseVal_stable :
    ∀ input fuel, input.length < fuel → parseVal fuel input = parse input := by
  intro input fuel hf
  unfold parse
  match hv : parseVal fuel input with
  | some (rem, v) =>
    have := (fuel_transfer fuel).1 input rem v hv (input.length + 1)
      (by omega)
    rw [this]
  | none =>
    match hv2 : parseVal (input.length + 1) input with
    | some (rem, v) =>
      have hc := parseVal_some_length (input.length + 1) input rem v hv2
      have := (fuel_transfer (input.length + 1)).1 input rem v hv2 fuel
        (by omega)
      rw [this] at hv
      exact absurd hv (by simp)
    | none => rfl

/-! ## Claim theorems: totality -/

/-- C9: the decoder is total: the fuelled dispatcher returns the same
value or failure for every fuel beyond the input length (each recursive
call of the source consumes input, so its recursion terminates and
never panics), and the four malformed spec examples all yield a parse
failure. -/
theorem C9_totality_and_malformed_inputs :
    (∀ input fuel, input.length < fuel → parseVal fuel input = parse input) ∧
    from_slice (strBytes "i e") = none ∧
    from_slice (strBytes "5:abc") = none ∧
    from_slice (strBytes "d3:cowe") = none ∧
    from_slice (strBytes "i4:spam") = none :=
  ⟨parseVal_stable, rfl, rfl, rfl, rfl⟩

/-- Witness for C9: fuel independence at a concrete input with excess
fuel. -/
theorem C9_witness :
    parseVal 10 (strBytes "i28e") = parse (strBytes "i28e") :=
  C9_totality_and_malformed_inputs.1 (strBytes "i28e") 10 (by decide)

/-! ## Parsing the grammar productions -/

theorem parse_integer_digits (digits rest : List Nat) (hne : digits ≠ [])
    (hall : ∀ x ∈ digits, isDigitB x = true) :
    parse_integer (105 :: (digits ++ 101 :: rest)) =
      some (rest, Bencoding.integer (natOf digits)) := by
  rw [parse_integer_cons, if_pos rfl,
    bigint_digits digits 101 rest hne hall not_digit_101]
  dsimp only
  rw [parse_end_cons, if_pos rfl]

theorem parse_integer_digits_neg (digits rest : List Nat) (hne : digits ≠ [])
    (hall : ∀ x ∈ digits, isDigitB x = true) :
    parse_integer (105 :: (45 :: (digits ++ 101 :: rest))) =
      some (rest, Bencoding.integer (-(natOf digits : Int))) := by
  rw [parse_integer_cons, if_pos rfl, ← List.cons_append,
    bigint_digits_neg digits 101 rest hne hall not_digit_101]
  dsimp only
  rw [parse_end_cons, if_pos rfl]

theorem parse_string_digits (digits payload X : List Nat)
    (hne : digits ≠ []) (hall : ∀ x ∈ digits, isDigitB x = true)
    (hlen : natOf digits = payload.length) (h32 : natOf digits < 4294967296) :
    parse_string (digits ++ 58 :: (payload ++ X)) =
      some (X, Bencoding.string payload) := by
  unfold parse_string
  rw [bigint_digits digits 58 (payload ++ X) hne hall not_digit_58]
  dsimp only
  rw [if_neg (by omega), if_neg (by omega), if_pos rfl]
  have htn : ((natOf digits : Int)).toNat = natOf digits := Int.toNat_natCast _
  rw [htn, hlen]
  rw [if_neg (by simp), List.take_left, List.drop_left]

/-- Every wire-grammar encoding is nonempty and starts with the byte
that identifies its production. -/
theorem encodesAux_head (bnd : Bool) (d : Nat) (E : List Nat) (V : Bencoding)
    (h : EncodesAux bnd d E V) :
    ∃ b r, E = b :: r ∧ (b = 105 ∨ b = 108 ∨ b = 100 ∨ isDigitB b = true) := by
  match d with
  | 0 => exact absurd h (by simp [EncodesAux])
  | d + 1 =>
    simp only [EncodesAux] at h
    rcases h with ⟨neg, digits, hne, hall, hbytes, hv⟩ | ⟨payload, hstr, hv⟩ |
      ⟨parts, vs, hf2, hbytes, hv⟩ | ⟨chunks, ps, hf2, hbytes, hv⟩
    · exact ⟨105, _, by rw [hbytes], Or.inl rfl⟩
    · obtain ⟨digits, hne, hall, hlen, hbnd, hkb⟩ := hstr
      obtain ⟨d0, ds, rfl⟩ := List.exists_cons_of_ne_nil hne
      exact ⟨d0, _, by rw [hkb, List.cons_append],
        Or.inr (Or.inr (Or.inr (hall d0 (by simp))))⟩
    · exact ⟨108, _, by rw [hbytes], Or.inr (Or.inl rfl)⟩
    · exact ⟨100, _, by rw [hbytes], Or.inr (Or.inr (Or.inl rfl))⟩

theorem encoding_head_ne_101 {b : Nat}
    (hb : b = 105 ∨ b = 108 ∨ b = 100 ∨ isDigitB b = true) : b ≠ 101 := by
  rcases hb with hb | hb | hb | hb
  · omega
  · omega
  · omega
  · simp [isDigitB] at hb; omega

/-- The element loop of the list production parses a concatenation of
encoded elements up to the terminator. -/
theorem encodes_elems_parse (d : Nat)
    (IH : ∀ E V, EncodesAux true d E V →
      ∀ rest fuel, E.length < fuel → parseVal fuel (E ++ rest) = some (rest, V)) :
    ∀ parts vs, List.Forall₂ (fun bs w => EncodesAux true d bs w) parts vs →
    ∀ rest g gl, parts.flatten.length < g → parts.flatten.length < gl →
      elemsLoop (fun j => parseVal g j) gl (parts.flatten ++ 101 :: rest) =
        some (rest, vs) := by
  intro parts vs hf
  induction hf with
  | nil =>
    intro rest g gl hg hgl
    obtain ⟨gl0, rfl⟩ : ∃ gl0, gl = gl0 + 1 := ⟨gl - 1, by omega⟩
    show elemsLoop _ (gl0 + 1)
      ((List.flatten ([] : List (List Nat))) ++ 101 :: rest) = _
    rw [show (List.flatten ([] : List (List Nat))) ++ 101 :: rest =
      101 :: rest by simp]
    rw [elemsLoop_succ, parse_end_cons, if_pos rfl]
  | cons h1 h2 ihtail =>
    rename_i E1 v1 parts2 vs2
    intro rest g gl hg hgl
    rw [List.flatten_cons] at hg hgl ⊢
    rw [List.append_assoc]
    simp only [List.length_append] at hg hgl
    obtain ⟨b0, r0, hE1, hb0⟩ := encodesAux_head true d E1 v1 h1
    have hb0e : b0 ≠ 101 := encoding_head_ne_101 hb0
    have hE1len : 1 ≤ E1.length := by rw [hE1]; simp
    obtain ⟨gl0, rfl⟩ : ∃ gl0, gl = gl0 + 1 := ⟨gl - 1, by omega⟩
    rw [elemsLoop_succ]
    have hend : parse_end (E1 ++ (parts2.flatten ++ 101 :: rest)) = none := by
      rw [hE1, List.cons_append, parse_end_cons, if_neg hb0e]
    rw [hend]
    dsimp only
    rw [IH E1 v1 h1 (parts2.flatten ++ 101 :: rest) g (by omega)]
    dsimp only
    rw [ihtail rest g gl0 (by omega) (by omega)]

/-- The pair loop of the dictionary production parses a concatenation of
encoded key/value chunks up to the terminator, folding the pairs into
the accumulator with last-write-wins inserts. -/
theorem encodes_pairs_parse (d : Nat)
    (IH : ∀ E V, EncodesAux true d E V →
      ∀ rest fuel, E.length < fuel → parseVal fuel (E ++ rest) = some (rest, V)) :
    ∀ chunks (ps : List (List Nat × Bencoding)),
      List.Forall₂ (fun c q => ∃ kb vb, StrEnc true kb q.1 ∧
        EncodesAux true d vb q.2 ∧ c = kb ++ vb) chunks ps →
    ∀ rest acc g gl, chunks.flatten.length < g → chunks.flatten.length < gl →
      pairsLoop (fun j => parseVal g j) gl (chunks.flatten ++ 101 :: rest) acc =
        some (rest, ps.foldl (fun dd q => insertA dd q.1 q.2) acc) := by
  intro chunks ps hf
  induction hf with
  | nil =>
    intro rest acc g gl hg hgl
    obtain ⟨gl0, rfl⟩ : ∃ gl0, gl = gl0 + 1 := ⟨gl - 1, by omega⟩
    show pairsLoop _ (gl0 + 1)
      ((List.flatten ([] : List (List Nat))) ++ 101 :: rest) acc = _
    rw [show (List.flatten ([] : List (List Nat))) ++ 101 :: rest =
      101 :: rest by simp]
    rw [pairsLoop_succ, parse_end_cons, if_pos rfl]
    rfl
  | cons h1 h2 ihtail =>
    rename_i c1 q1 chunks2 ps2
    intro rest acc g gl hg hgl
    obtain ⟨kb, vb, hkb, hvb, hc⟩ := h1
    obtain ⟨digits, hne, hall, hlen, hbnd, hkbe⟩ := hkb
    obtain ⟨d0, ds, hdigits⟩ := List.exists_cons_of_ne_nil hne
    have h32 := hbnd rfl
    rw [List.flatten_cons] at hg hgl ⊢
    simp only [List.length_append] at hg hgl
    have hclen : c1.length = kb.length + vb.length := by rw [hc]; simp
    have hkblen : 2 ≤ kb.length := by
      rw [hkbe, hdigits]
      simp
      omega
    obtain ⟨gl0, rfl⟩ : ∃ gl0, gl = gl0 + 1 := ⟨gl - 1, by omega⟩
    rw [hc, List.append_assoc, List.append_assoc]
    rw [pairsLoop_succ]
    have hend : parse_end (kb ++ (vb ++ (chunks2.flatten ++ 101 :: rest))) =
        none := by
      rw [hkbe, hdigits, List.cons_append, List.cons_append, parse_end_cons,
        if_neg (encoding_head_ne_101 (Or.inr (Or.inr (Or.inr
          (hall d0 (by rw [hdigits]; simp))))))]
    rw [hend]
    dsimp only
    have hstr : parse_string (kb ++ (vb ++ (chunks2.flatten ++ 101 :: rest))) =
        some (vb ++ (chunks2.flatten ++ 101 :: rest), Bencoding.string q1.1) := by
      rw [hkbe, List.append_assoc, List.cons_append]
      exact parse_string_digits digits q1.1
        (vb ++ (chunks2.flatten ++ 101 :: rest)) hne hall hlen h32
    rw [hstr]
    dsimp only
    rw [IH vb q1.2 hvb (chunks2.flatten ++ 101 :: rest) g (by omega)]
    dsimp only
    rw [List.foldl_cons]
    exact ihtail rest (insertA acc q1.1 q1.2) g gl0 (by omega) (by omega)

/-- Soundness of the decoder for the (length-bounded) wire grammar: a
valid encoding followed by any suffix parses to its value with exactly
that suffix as remainder, at every sufficient fuel. -/
theorem encodesAux_parse :
    ∀ d E V, EncodesAux true d E V →
      ∀ rest fuel, E.length < fuel →
        parseVal fuel (E ++ rest) = some (rest, V) := by
  intro d
  induction d with
  | zero =>
    intro E V h
    exact absurd h (by simp [EncodesAux])
  | succ d ihd =>
    intro E V h rest fuel hf
    simp only [EncodesAux] at h
    rcases h with ⟨neg, digits, hne, hall, hbytes, hv⟩ | ⟨payload, hstr, hv⟩ |
      ⟨parts, vs, hf2, hbytes, hv⟩ | ⟨chunks, ps, hf2, hbytes, hv⟩
    · subst hbytes
      subst hv
      obtain ⟨fl, rfl⟩ : ∃ fl, fuel = fl + 1 := ⟨fuel - 1, by omega⟩
      rw [List.cons_append, List.append_assoc, List.singleton_append]
      rw [parseVal_succ]
      cases neg with
      | false =>
        simp only [Bool.false_eq_true, if_false]
        rw [parse_integer_digits digits rest hne hall, orTry_some]
      | true =>
        simp only [if_true]
        rw [List.cons_append,
          parse_integer_digits_neg digits rest hne hall, orTry_some]
    · subst hv
      obtain ⟨digits, hne, hall, hlen, hbnd, hkb⟩ := hstr
      subst hkb
      obtain ⟨d0, ds, rfl⟩ := List.exists_cons_of_ne_nil hne
      have hd0 : isDigitB d0 = true := hall d0 (by simp)
      have h32 := hbnd rfl
      obtain ⟨fl, rfl⟩ : ∃ fl, fuel = fl + 1 := ⟨fuel - 1, by omega⟩
      rw [List.append_assoc, List.cons_append, List.cons_append]
      rw [parseVal_succ]
      rw [parse_integer_head_fail _ (by simp [isDigitB] at hd0; omega),
        orTry_none]
      rw [parse_list_head_fail _ _ _ (by simp [isDigitB] at hd0; omega),
        orTry_none]
      rw [parse_dictionary_head_fail _ _ _ (by simp [isDigitB] at hd0; omega),
        orTry_none]
      have := parse_string_digits (d0 :: ds) payload rest hne hall hlen h32
      rw [List.cons_append] at this
      exact this
    · subst hbytes
      subst hv
      obtain ⟨fl, rfl⟩ : ∃ fl, fuel = fl + 1 := ⟨fuel - 1, by omega⟩
      rw [List.cons_append, List.append_assoc, List.singleton_append]
      rw [parseVal_succ]
      rw [parse_integer_head_fail _ (by omega), orTry_none]
      have hflen : parts.flatten.length + 2 ≤ fl + 1 := by
        have := hf
        simp only [List.length_cons, List.length_append,
          List.length_singleton] at this
        omega
      have hloop := encodes_elems_parse d ihd parts vs hf2 rest fl fl
        (by omega) (by omega)
      have hnew : parse_list (fun j => parseVal fl j) fl
          (108 :: (parts.flatten ++ 101 :: rest)) =
          some (rest, Bencoding.list vs) := by
        rw [parse_list_cons, if_pos rfl, hloop]
      rw [hnew, orTry_some]
    · subst hbytes
      subst hv
      obtain ⟨fl, rfl⟩ : ∃ fl, fuel = fl + 1 := ⟨fuel - 1, by omega⟩
      rw [List.cons_append, List.append_assoc, List.singleton_append]
      rw [parseVal_succ]
      rw [parse_integer_head_fail _ (by omega), orTry_none]
      rw [parse_list_head_fail _ _ _ (by omega), orTry_none]
      have hflen : chunks.flatten.length + 2 ≤ fl + 1 := by
        have := hf
        simp only [List.length_cons, List.length_append,
          List.length_singleton] at this
        omega
      have hloop := encodes_pairs_parse d ihd chunks ps hf2 rest [] fl fl
        (by omega) (by omega)
      have hnew : parse_dictionary (fun j => parseVal fl j) fl
          (100 :: (chunks.flatten ++ 101 :: rest)) =
          some (rest, Bencoding.dictionary (dictOf ps)) := by
        rw [parse_dictionary_cons, if_pos rfl, hloop]
        rfl
      rw [hnew, orTry_some]

/-! ## Claim theorems: decoding valid encodings -/

/-- C1 (amended): for every byte sequence E that is a valid encoding of
a value V under the wire grammar, in which additionally every string
length prefix fits an unsigned 32-bit quantity, from_slice E succeeds
and returns V; equivalently the dispatcher yields V with an empty
remainder. -/
theorem C1_bounded_valid_encodings_decode :
    ∀ E V, EncodesB E V → from_slice E = some V := by
  rintro E V ⟨d, h⟩
  have hp := encodesAux_parse d E V h [] (E.length + 1) (by omega)
  rw [List.append_nil] at hp
  unfold from_slice parse
  rw [hp]
  rfl

/-- Witness for C1 at the concrete encoding i28e of Integer 28. -/
theorem C1_witness :
    from_slice (strBytes "i28e") = some (Bencoding.integer 28) := by
  apply C1_bounded_valid_encodings_decode
  refine ⟨1, ?_⟩
  simp only [EncodesAux]
  exact Or.inl ⟨false, [50, 56], by decide, by decide, by decide, rfl⟩

/-- A dispatcher failure is a from_slice failure. -/
theorem from_slice_of_parse_none {i : List Nat} (h : parse i = none) :
    from_slice i = none := by
  unfold from_slice
  rw [h]

/-- C1 counterexample: the claim fails over the unbounded wire grammar:
this grammar-valid encoding of a string of 2^32 bytes is rejected by
from_slice at the u32 narrowing of its length prefix. -/
theorem C1_counterexample :
    Encodes bigInput (Bencoding.string bigPayload) ∧
    from_slice bigInput = none := by
  have hnat : natOf bigLenDigits = 4294967296 := by decide
  constructor
  · refine ⟨1, ?_⟩
    simp only [EncodesAux]
    refine Or.inr (Or.inl ⟨bigPayload, ⟨bigLenDigits, by decide, by decide,
      ?_, by simp, rfl⟩, rfl⟩)
    show natOf bigLenDigits = (List.replicate 4294967296 48).length
    rw [List.length_replicate, hnat]
  · have h1 : parse_bigint (bigLenDigits ++ 58 :: bigPayload) =
        some (58 :: bigPayload, (natOf bigLenDigits : Int)) :=
      bigint_digits bigLenDigits 58 bigPayload (by decide) (by decide)
        not_digit_58
    have hstr : parse_string bigInput = none := by
      show parse_string (bigLenDigits ++ 58 :: bigPayload) = none
      unfold parse_string
      rw [h1]
      dsimp only
      rw [hnat]
      rw [if_neg (by omega), if_pos (by omega)]
    have hfail : parse bigInput = none := by
      unfold parse
      rw [parseVal_succ]
      rw [show bigInput =
        52 :: ([50, 57, 52, 57, 54, 55, 50, 57, 54] ++ 58 :: bigPayload)
        from rfl]
      rw [parse_integer_head_fail _ (by omega), orTry_none,
        parse_list_head_fail _ _ _ (by omega), orTry_none,
        parse_dictionary_head_fail _ _ _ (by omega), orTry_none]
      rw [show (52 : Nat) ::
        ([50, 57, 52, 57, 54, 55, 50, 57, 54] ++ 58 :: bigPayload) = bigInput
        from rfl]
      exact hstr
    exact from_slice_of_parse_none hfail

/-! ## Claim theorems: the dispatcher and the leading byte -/

/-- C8 (amended): the ordered backtracking alternation of the dispatcher
is equivalent to branching directly on the leading byte, provided the
byte branch sends a leading 45 (the sign byte, which the String
production accepts in a length such as -0) to the String production as
well as a digit; and on any input at most one of the four productions
can succeed. -/
theorem C8_dispatcher_leading_byte :
    (∀ fuel input, parseVal fuel input = byteDispatchAmd fuel input) ∧
    (∀ p fuel input r, parse_integer input = some r →
       parse_list p fuel input = none ∧ parse_dictionary p fuel input = none ∧
       parse_string input = none) ∧
    (∀ p q fuel g input r, parse_list p fuel input = some r →
       parse_integer input = none ∧ parse_dictionary q g input = none ∧
       parse_string input = none) ∧
    (∀ p q fuel g input r, parse_dictionary p fuel input = some r →
       parse_integer input = none ∧ parse_list q g input = none ∧
       parse_string input = none) ∧
    (∀ p fuel input r, parse_string input = some r →
       parse_integer input = none ∧ parse_list p fuel input = none ∧
       parse_dictionary p fuel input = none) := by
  refine ⟨?_, ?_, ?_, ?_, ?_⟩
  · intro fuel
    induction fuel with
    | zero => intro input; rfl
    | succ f ih =>
      intro input
      have hfun : (fun j => parseVal f j) = (fun j => byteDispatchAmd f j) :=
        funext fun j => ih j
      rw [parseVal_succ, hfun]
      match input with
      | [] =>
        rw [parse_integer_nil, orTry_none, parse_list_nil, orTry_none,
          parse_dictionary_nil, orTry_none, parse_string_nil]
        rfl
      | b :: r =>
        have hBD : byteDispatchAmd (f + 1) (b :: r) =
            if b = 105 then parse_integer (b :: r)
            else if b = 108 then
              parse_list (fun j => byteDispatchAmd f j) f (b :: r)
            else if b = 100 then
              parse_dictionary (fun j => byteDispatchAmd f j) f (b :: r)
            else if isDigitB b || b = 45 then parse_string (b :: r)
            else none := rfl
        rw [hBD]
        by_cases h105 : b = 105
        · subst h105
          rw [if_pos rfl]
          match hint : parse_integer (105 :: r) with
          | some rr => rw [orTry_some]
          | none =>
            rw [orTry_none,
              parse_list_head_fail _ _ _ (by omega), orTry_none,
              parse_dictionary_head_fail _ _ _ (by omega), orTry_none,
              parse_string_head_fail _ (by decide) (by omega)]
        · rw [if_neg h105]
          by_cases h108 : b = 108
          · subst h108
            rw [if_pos rfl,
              parse_integer_head_fail _ (by omega), orTry_none]
            match hl : parse_list (fun j => byteDispatchAmd f j) f (108 :: r)
                with
            | some rr => rw [orTry_some]
            | none =>
              rw [orTry_none,
                parse_dictionary_head_fail _ _ _ (by omega), orTry_none,
                parse_string_head_fail _ (by decide) (by omega)]
          · rw [if_neg h108]
            by_cases h100 : b = 100
            · subst h100
              rw [if_pos rfl,
                parse_integer_head_fail _ (by omega), orTry_none,
                parse_list_head_fail _ _ _ (by omega), orTry_none]
              match hd : parse_dictionary (fun j => byteDispatchAmd f j) f
                  (100 :: r) with
              | some rr => rw [orTry_some]
              | none =>
                rw [orTry_none,
                  parse_string_head_fail _ (by decide) (by omega)]
            · rw [if_neg h100]
              by_cases hds : (isDigitB b || b = 45) = true
              · rw [if_pos hds,
                  parse_integer_head_fail _ h105, orTry_none,
                  parse_list_head_fail _ _ _ h108, orTry_none,
                  parse_dictionary_head_fail _ _ _ h100, orTry_none]
              · rw [if_neg hds]
                simp only [Bool.or_eq_true, decide_eq_true_eq, not_or,
                  Bool.not_eq_true] at hds
                rw [parse_integer_head_fail _ h105, orTry_none,
                  parse_list_head_fail _ _ _ h108, orTry_none,
                  parse_dictionary_head_fail _ _ _ h100, orTry_none,
                  parse_string_head_fail _ hds.1 hds.2]
  · intro p fuel input r h
    obtain ⟨t, rfl⟩ := parse_integer_some_head h
    exact ⟨parse_list_head_fail _ _ _ (by omega),
      parse_dictionary_head_fail _ _ _ (by omega),
      parse_string_head_fail _ (by decide) (by omega)⟩
  · intro p q fuel g input r h
    obtain ⟨t, rfl⟩ := parse_list_some_head h
    exact ⟨parse_integer_head_fail _ (by omega),
      parse_dictionary_head_fail _ _ _ (by omega),
      parse_string_head_fail _ (by decide) (by omega)⟩
  · intro p q fuel g input r h
    obtain ⟨t, rfl⟩ := parse_dictionary_some_head h
    exact ⟨parse_integer_head_fail _ (by omega),
      parse_list_head_fail _ _ _ (by omega),
      parse_string_head_fail _ (by decide) (by omega)⟩
  · intro p fuel input r h
    obtain ⟨b, t, rfl, hb⟩ := parse_string_some_head h
    have h1 : b ≠ 105 := by
      rcases hb with hb | hb
      · simp [isDigitB] at hb; omega
      · omega
    have h2 : b ≠ 108 := by
      rcases hb with hb | hb
      · simp [isDigitB] at hb; omega
      · omega
    have h3 : b ≠ 100 := by
      rcases hb with hb | hb
      · simp [isDigitB] at hb; omega
      · omega
    exact ⟨parse_integer_head_fail _ h1, parse_list_head_fail _ _ _ h2,
      parse_dictionary_head_fail _ _ _ h3⟩

/-- C8 counterexample: on the input -0: (a string with declared length
-0, whose BigInt value 0 is not negative) the dispatcher succeeds via
the String production although the leading byte is none of i, l, d, or
a digit, so the byte branch as the claim words it is not equivalent to
the dispatcher. -/
theorem C8_counterexample :
    parse (strBytes "-0:") = some ([], Bencoding.string []) ∧
    byteDispatchSpec ((strBytes "-0:").length + 1) (strBytes "-0:") = none :=
  ⟨rfl, rfl⟩

/-- Witness for C8: the mutual-exclusion arm at the concrete input i3e,
which only the integer production accepts. -/
theorem C8_witness :
    parse_list parse_string 0 (strBytes "i3e") = none ∧
    parse_dictionary parse_string 0 (strBytes "i3e") = none ∧
    parse_string (strBytes "i3e") = none :=
  C8_dispatcher_leading_byte.2.1 parse_string 0 (strBytes "i3e")
    ([], Bencoding.integer 3) rfl

end Netfun
